import Mathlib

/-!
# WBS ReactFlow prototype — verification of the spec'd core

Shallow embedding of `app/src/App.tsx`: the graph loader, the hierarchy
layout engine (multi-source BFS depth assignment, per-level comparator
sort, grid coordinates), the focus/view selector (global tree view vs.
local star view), and the interaction controller (view-mode and
context-menu state machine driven by gesture events).

Conventions of the embedding:
* JavaScript strings are `String`; `string | null` is `Option String`.
* `Record<string, T>` objects used as growing maps are association lists
  (`List (String × T)`, first binding wins) since the code only ever
  inserts absent keys; `Set<string>` is a duplicate-free `List String`
  in insertion order; `Object.keys` insertion-order semantics is
  `dedupFirst`.
* The `while (queue.length > 0)` BFS loop runs on explicit fuel
  (`bfsAux`); `bfsFuel` is a bound proved sufficient by the measure
  argument `2 * |unleveled hierarchy-edge targets| + |queue|`, which
  strictly drops every iteration (`enqueueChildren_measure`).
* Screen coordinates in the interaction controller are `Int` (the code
  never computes with them); layout coordinates are `ℝ`, with
  `Math.cos`/`Math.sin`/`Math.PI` idealized as `Real.cos`/`Real.sin`/
  `Real.pi`.
* Presentational fields that no claim mentions (derived `label`, the
  ReactFlow `type: "default"` tag, the `data` payload wrapper) are
  omitted from the node/edge records.
-/

/-- A raw input node (`{id: string, ...}`).  The loader's derived display
label and opaque `data` payload are not modelled: no verified property
mentions them, and the layout/view logic never reads them. -/
structure RawNode where
  id : String
deriving DecidableEq, Repr

/-- A raw input edge: `{id, type, source, target}`.  `type` is the WBS
edge kind (`"HIERARCHY"` or a dependency kind such as
`"DOC_DEPENDS_ON"`).  The loader copies these fields unchanged into the
ReactFlow edge record (adding only presentational `label`/`data`),
so view-level edge sequences are modelled directly as `RawEdge`s. -/
structure RawEdge where
  id : String
  type : String
  source : String
  target : String
deriving DecidableEq, Repr

/-- The loaded input document: `{nodes: [...], edges: [...]}`. -/
structure WbsGraph where
  nodes : List RawNode
  edges : List RawEdge
deriving DecidableEq, Repr

/-- First-occurrence deduplication, the key order of a JavaScript object
populated by insertion (`Object.keys(nodeMap)`). -/
def dedupFirst {α : Type} [DecidableEq α] (l : List α) : List α :=
  l.foldl (fun acc x => if x ∈ acc then acc else acc ++ [x]) []

/-- `Object.keys(nodeMap)`: ids of the loaded nodes, first occurrence
first (duplicate ids collapse into one key). -/
def allNodeIds (g : WbsGraph) : List String :=
  dedupFirst (g.nodes.map (·.id))

/-- The `hierarchyEdges` sequence: edges with `e.type === "HIERARCHY"`,
in input order. -/
def hierarchyEdges (g : WbsGraph) : List RawEdge :=
  g.edges.filter (fun e => e.type == "HIERARCHY")

/-- The `dependencyEdges` sequence: every non-`HIERARCHY` edge, in input
order. -/
def dependencyEdges (g : WbsGraph) : List RawEdge :=
  g.edges.filter (fun e => !(e.type == "HIERARCHY"))

/-- `childrenByParent[p]`: targets of the hierarchy edges whose source is
`p`, in edge order. -/
def childrenOf (hedges : List RawEdge) (p : String) : List String :=
  (hedges.filter (fun e => e.source == p)).map (·.target)

/-- `childSet.has(id)`: does `id` appear as the target of some hierarchy
edge? -/
def isChildId (g : WbsGraph) (id : String) : Bool :=
  (hierarchyEdges g).any (fun e => e.target == id)

/-- `roots`: node ids that never appear as the target of a hierarchy
edge. -/
def roots (g : WbsGraph) : List String :=
  (allNodeIds g).filter (fun id => !(isChildId g id))

/-- The `levels` record: node id ↦ BFS depth, as an association list
(bindings are only ever added for absent keys, so the first binding is
the only one). -/
abbrev Levels := List (String × Nat)

/-- Body of the `children.forEach` inside the BFS loop: each child not
yet in `levels` is assigned `lvl` and pushed on the queue. -/
def enqueueChildren (lvl : Nat) : List String → Levels → List String → Levels × List String
  | [], levels, queue => (levels, queue)
  | c :: cs, levels, queue =>
    match levels.lookup c with
    | some _ => enqueueChildren lvl cs levels queue
    | none => enqueueChildren lvl cs (levels ++ [(c, lvl)]) (queue ++ [c])

/-- The `while (queue.length > 0)` BFS loop, on fuel: shift the head
`p`, read its level, and enqueue its unvisited children at `level + 1`.
Runs one iteration per unit of fuel; `bfsFuel` below is enough fuel to
drain the queue (see `bfsAux_inv`). -/
def bfsAux (hedges : List RawEdge) : Nat → Levels → List String → Levels
  | 0, levels, _ => levels
  | _ + 1, levels, [] => levels
  | fuel + 1, levels, p :: queue =>
    let lvl := (levels.lookup p).getD 0
    let st := enqueueChildren (lvl + 1) (childrenOf hedges p) levels queue
    bfsAux hedges fuel st.1 st.2

/-- Number of hierarchy-edge targets (with multiplicity) not yet bound in
`levels`: the decreasing part of the loop measure. -/
def unleveled (hedges : List RawEdge) (levels : Levels) : Nat :=
  (hedges.map (·.target)).countP (fun t => (levels.lookup t).isNone)

/-- `roots.forEach(id => { levels[id] = 0; ... })`. -/
def initLevels (g : WbsGraph) : Levels :=
  (roots g).map (fun id => (id, 0))

/-- Fuel sufficient for the BFS loop: its initial measure. -/
def bfsFuel (g : WbsGraph) : Nat :=
  2 * unleveled (hierarchyEdges g) (initLevels g) + (roots g).length

/-- The `levels` record after the BFS loop has drained the queue. -/
def levelsMap (g : WbsGraph) : Levels :=
  bfsAux (hierarchyEdges g) (bfsFuel g) (initLevels g) (roots g)

/-- Depth of a node id after the final fallback loop (`levels[id]`
defaults to `0` for every id never reached by the traversal). -/
def levelOf (g : WbsGraph) (id : String) : Nat :=
  ((levelsMap g).lookup id).getD 0

/-- `v` is joined to the root set `rs` by a hierarchy-edge path of length
`n`: the "BFS distance `n` from some root" relation. -/
inductive ReachesIn (hedges : List RawEdge) (rs : List String) : String → Nat → Prop
  | root {r : String} : r ∈ rs → ReachesIn hedges rs r 0
  | step {a b : String} {n : Nat} :
      ReachesIn hedges rs a n → b ∈ childrenOf hedges a → ReachesIn hedges rs b (n + 1)

/-- Model of the JavaScript `Number(id)` coercion as used by the sibling
comparator, for the unsigned decimal ids the comparator is designed for:
a nonempty all-digit string parses to its value, anything else is `NaN`
(`none`).  (Signs, fractions, exponents, hex and the whitespace/empty
cases of full `Number` semantics do not occur in WBS ids and are
modelled as `NaN`.) -/
def parseNum (s : String) : Option Nat :=
  if s.length != 0 && s.toList.all Char.isDigit then
    some (s.toList.foldl (fun acc c => acc * 10 + (c.toNat - 48)) 0)
  else none

/-- Lexicographic three-way comparison of code-point sequences. -/
def charListCmp : List Char → List Char → Ordering
  | [], [] => .eq
  | [], _ :: _ => .lt
  | _ :: _, [] => .gt
  | a :: as, b :: bs =>
    if a.toNat < b.toNat then .lt
    else if b.toNat < a.toNat then .gt
    else charListCmp as bs

/-- Sign of `localeCompare`, modelled as code-point lexicographic
comparison (the spec reading: "compare lexicographically as strings"). -/
def strCmp (a b : String) : Ordering :=
  charListCmp a.toList b.toList

/-- Sign of the sibling comparator of the layout engine: numeric when
both ids parse as numbers and differ numerically, otherwise (including
numeric ties) lexicographic. -/
def idCompare (a b : String) : Ordering :=
  match parseNum a, parseNum b with
  | some x, some y => if x ≠ y then (if x < y then .lt else .gt) else strCmp a b
  | _, _ => strCmp a b

/-- "`a` may precede `b`": the comparator does not return a positive
value on `(a, b)`. -/
def idLe (a b : String) : Bool :=
  !(idCompare a b == Ordering.gt)

/-- Insert into a sorted list, before the first element the inserted one
may precede. -/
def insertSorted {α : Type} (le : α → α → Bool) (x : α) : List α → List α
  | [] => [x]
  | y :: ys => if le x y then x :: y :: ys else y :: insertSorted le x ys

/-- Stable comparison sort (insertion sort).  Models
`Array.prototype.sort(comparator)`, which ECMAScript requires to be a
stable comparison sort; for a consistent comparator every stable
comparison sort computes the same sequence. -/
def insSort {α : Type} (le : α → α → Bool) : List α → List α
  | [] => []
  | x :: xs => insertSorted le x (insSort le xs)

/-- `grouped[l]`: ids of depth `l`, in `allNodeIds` order (the grouping
loop walks `allNodeIds` and appends each id to its depth bucket). -/
def groupAt (g : WbsGraph) (l : Nat) : List String :=
  (allNodeIds g).filter (fun id => levelOf g id == l)

/-- One depth bucket after `nodesAtLevel.sort(comparator)`. -/
def sortedGroupAt (g : WbsGraph) (l : Nat) : List String :=
  insSort idLe (groupAt g l)

/-- The distinct depths in ascending order
(`Object.keys(grouped).map(Number).sort((a,b) => a-b)`; integer-like
object keys already iterate in ascending order). -/
def levelKeys (g : WbsGraph) : List Nat :=
  insSort (fun a b => decide (a ≤ b)) (dedupFirst ((allNodeIds g).map (levelOf g)))

/-- `(n, index) => ...` of a JavaScript `map` with index. -/
def mapWithIndex {α β : Type} (f : Nat → α → β) : Nat → List α → List β
  | _, [] => []
  | i, x :: xs => f i x :: mapWithIndex f (i + 1) xs

/-- A node of the cached base layout, with its grid provenance: depth
(`level`) and position (`idx`) within its sorted depth bucket.  Its
coordinates are `x = level * 260`, `y = idx * 120` (`basePositioned`). -/
structure BaseNode where
  id : String
  level : Nat
  idx : Nat
deriving DecidableEq, Repr

/-- The `baseNodes` sequence: depth buckets in ascending depth order,
each bucket comparator-sorted, each node tagged with its depth and its
index within the bucket. -/
def baseNodesSeq (g : WbsGraph) : List BaseNode :=
  (levelKeys g).flatMap (fun l => mapWithIndex (fun i id => ⟨id, l, i⟩) 0 (sortedGroupAt g l))

/-- A rendered node: id plus 2-D view-space coordinates. -/
structure PosNode where
  id : String
  x : ℝ
  y : ℝ

/-- `xGap`. -/
def xGap : ℝ := 260
/-- `yGap`. -/
def yGap : ℝ := 120

/-- The positioned base layout: `x = level * xGap`, `y = idx * yGap`. -/
noncomputable def basePositioned (g : WbsGraph) : List PosNode :=
  (baseNodesSeq g).map (fun b => ⟨b.id, b.level * xGap, b.idx * yGap⟩)

/-- View mode. -/
inductive ViewMode
  | GLOBAL
  | LOCAL
deriving DecidableEq, Repr

/-- View state: mode plus optional focus node id (`string | null`). -/
structure ViewState where
  mode : ViewMode
  focusNodeId : Option String
deriving DecidableEq, Repr

/-- Edges incident to the focus id, hierarchy edges first then
dependency edges (`[...hierarchyEdges, ...dependencyEdges].filter`). -/
def incidentEdges (g : WbsGraph) (f : String) : List RawEdge :=
  (hierarchyEdges g ++ dependencyEdges g).filter (fun e => e.source == f || e.target == f)

/-- `Set.add`: append if absent. -/
def addId (acc : List String) (v : String) : List String :=
  if v ∈ acc then acc else acc ++ [v]

/-- The `neighborIds` set, in insertion order: for each incident edge,
add the target if the focus is the source, and the source if the focus
is the target. -/
def neighborIdList (g : WbsGraph) (f : String) : List String :=
  (incidentEdges g f).foldl
    (fun acc e =>
      let acc1 := if e.source == f then addId acc e.target else acc
      if e.target == f then addId acc1 e.source else acc1)
    []

/-- `neighbors`: base nodes whose id is in the `neighborIds` set, in
base-sequence order. -/
noncomputable def localNeighbors (g : WbsGraph) (f : String) : List PosNode :=
  (basePositioned g).filter (fun n => (neighborIdList g f).contains n.id)

/-- Star radius `r`. -/
def starRadius : ℝ := 220

/-- `x` of the `index`-th of `k` neighbors:
`cx + r * Math.cos((2 * Math.PI * index) / k)` with `cx = 0`. -/
noncomputable def starX (i k : Nat) : ℝ :=
  0 + starRadius * Real.cos ((2 * Real.pi * i) / k)

/-- `y` of the `index`-th of `k` neighbors. -/
noncomputable def starY (i k : Nat) : ℝ :=
  0 + starRadius * Real.sin ((2 * Real.pi * i) / k)

/-- The local star layout: the focus node re-positioned at the origin
(`{...center, position: {x: 0, y: 0}}`), followed by the neighbors
re-positioned on the radius-220 circle (an empty neighbor list yields
only the focus node). -/
noncomputable def starNodes (g : WbsGraph) (f : String) (center : PosNode) : List PosNode :=
  let neighbors := localNeighbors g f
  ⟨center.id, 0, 0⟩ ::
    (if neighbors.length = 0 then []
     else mapWithIndex (fun i n => ⟨n.id, starX i neighbors.length, starY i neighbors.length⟩)
       0 neighbors)

/-- The focus/view selector (`useMemo` deriving `{nodes, edges}`): the
global tree view (all base nodes, hierarchy edges only) when the mode is
GLOBAL, when no focus id is set — including the falsy empty-string id
(`!focusNodeId`) — or when the focus id is not found among the base
nodes; otherwise the local star view around the focus node. -/
noncomputable def deriveView (g : WbsGraph) (vs : ViewState) : List PosNode × List RawEdge :=
  match vs.mode, vs.focusNodeId with
  | ViewMode.GLOBAL, _ => (basePositioned g, hierarchyEdges g)
  | ViewMode.LOCAL, none => (basePositioned g, hierarchyEdges g)
  | ViewMode.LOCAL, some f =>
    if f = "" then (basePositioned g, hierarchyEdges g)
    else
      match (basePositioned g).find? (fun n => n.id == f) with
      | none => (basePositioned g, hierarchyEdges g)
      | some center => (starNodes g f center, incidentEdges g f)

/-- Which element the context menu targets: the empty canvas or a node. -/
inductive MenuKind
  | canvas
  | node
deriving DecidableEq, Repr

/-- The context-menu state: visibility, screen position of the
right-click, target kind, and (for a node menu) the target node id. -/
structure ContextMenuState where
  visible : Bool
  x : Int
  y : Int
  type : MenuKind
  nodeId : Option String
deriving DecidableEq, Repr

/-- The interaction controller's state: the two `useState` pairs
(`viewMode`/`focusNodeId`) plus the context-menu record. -/
structure UiState where
  viewMode : ViewMode
  focusNodeId : Option String
  menu : ContextMenuState
deriving DecidableEq, Repr

/-- Gesture and menu events the rendering collaborator (and the menu
chrome) can emit. -/
inductive UiEvent
  | nodeClick (id : String)
  | edgeClick (id : String)
  | paneClick
  | paneContextMenu (x y : Int)
  | nodeContextMenu (x y : Int) (id : String)
  | menuReturnToWbs
  | menuShowConnected
  | menuCreateNode
deriving DecidableEq, Repr

/-- Observable side effects of a handler: diagnostic logging and the
blocking user-visible alert. -/
inductive Effect
  | consoleLog (msg : String)
  | alertMsg (msg : String)
deriving DecidableEq, Repr

/-- `hideContextMenu`: `prev => ({ ...prev, visible: false })`. -/
def hideMenu (m : ContextMenuState) : ContextMenuState :=
  { m with visible := false }

/-- One event-handler step of the interaction controller.  Note the
truthiness guards of the source: `onPaneContextMenu`/`onNodeContextMenu`
replace the whole menu record; the "show connected nodes" item sets
LOCAL mode only when `contextMenu.nodeId` is truthy (present and
non-empty) but closes the menu unconditionally. -/
def stepE (s : UiState) (e : UiEvent) : UiState × List Effect :=
  match e with
  | .nodeClick id =>
    ({ s with menu := hideMenu s.menu }, [.consoleLog ("Node clicked: " ++ id)])
  | .edgeClick id =>
    ({ s with menu := hideMenu s.menu }, [.consoleLog ("Edge clicked: " ++ id)])
  | .paneClick =>
    ({ s with menu := hideMenu s.menu }, [])
  | .paneContextMenu x y =>
    ({ s with menu := ⟨true, x, y, .canvas, none⟩ }, [])
  | .nodeContextMenu x y id =>
    ({ s with menu := ⟨true, x, y, .node, some id⟩ },
      [.consoleLog ("Node right-clicked: " ++ id)])
  | .menuReturnToWbs =>
    ({ viewMode := .GLOBAL, focusNodeId := none, menu := hideMenu s.menu }, [])
  | .menuShowConnected =>
    (match s.menu.nodeId with
      | some nid =>
        if nid = "" then { s with menu := hideMenu s.menu }
        else { s with viewMode := .LOCAL, focusNodeId := some nid, menu := hideMenu s.menu }
      | none => { s with menu := hideMenu s.menu },
     [])
  | .menuCreateNode =>
    ({ s with menu := hideMenu s.menu },
      [.consoleLog "create connected node (dummy)", .alertMsg "not implemented yet"])

/-- The initial interaction state: GLOBAL view, no focus, menu hidden at
`(0, 0)` targeting the canvas. -/
def initUiState : UiState :=
  ⟨.GLOBAL, none, ⟨false, 0, 0, .canvas, none⟩⟩

/-- Run a sequence of events from a state. -/
def runE (s : UiState) (evs : List UiEvent) : UiState :=
  evs.foldl (fun s e => (stepE s e).1) s

/-- The whole application state: the immutable loaded graph plus the
interaction state.  No event handler can write the graph — the source
has no setter for it. -/
structure AppState where
  graph : WbsGraph
  ui : UiState

/-- An event-handler step at application level: the graph is carried
through untouched. -/
def stepA (a : AppState) (e : UiEvent) : AppState × List Effect :=
  (⟨a.graph, (stepE a.ui e).1⟩, (stepE a.ui e).2)

/-- Events that (per the source handlers) close the context menu:
left-clicks on node, edge or canvas, and the three menu items. -/
def closesMenu : UiEvent → Bool
  | .nodeClick _ => true
  | .edgeClick _ => true
  | .paneClick => true
  | .menuReturnToWbs => true
  | .menuShowConnected => true
  | .menuCreateNode => true
  | _ => false

/-- Example graph of the spec's §8 worked example: nodes `A`, `B`, `C`,
hierarchy edges `A→B` and `A→C`, plus a dependency edge `C→B` to
exercise dependency handling. -/
def exGraph : WbsGraph :=
  ⟨[⟨"A"⟩, ⟨"B"⟩, ⟨"C"⟩],
   [⟨"e1", "HIERARCHY", "A", "B"⟩, ⟨"e2", "HIERARCHY", "A", "C"⟩,
    ⟨"e3", "DOC_DEPENDS_ON", "C", "B"⟩]⟩

/-- Three isolated nodes whose ids make the sibling comparator cyclic:
`"2" < "10"` numerically, `"10" < "1a"` and `"1a" < "2"`
lexicographically. -/
def cycleGraph : WbsGraph :=
  ⟨[⟨"10"⟩, ⟨"1a"⟩, ⟨"2"⟩], []⟩

/-- Spec-side predicate: `v` is the other endpoint of some (hierarchy or
dependency) edge of the input incident to the focus id `f`. -/
def isNeighborOf (g : WbsGraph) (f v : String) : Bool :=
  g.edges.any (fun e => (e.source == f && e.target == v) || (e.target == f && e.source == v))

/-- The BFS loop invariant.  `levels`/`queue` is a mid-loop state over
hierarchy edges `hedges` and root list `rs`:

* `sound`: every recorded depth is realized by a hierarchy path from a
  root of exactly that length;
* `rootsDone`: every root is recorded at depth 0;
* `qLeveled`: everything on the queue has a recorded depth;
* `nodupQ`: the queue never repeats an id;
* `monoQ`: recorded depths are non-decreasing along the queue;
* `bandQ`: every recorded depth is at most one more than the depth of
  anything still on the queue (FIFO window property);
* `closed`: a processed id (recorded, off the queue) has all its
  children recorded at most one level deeper.

With the queue empty, `sound` + `rootsDone` + `closed` make the final
`levels` record exactly the multi-source BFS distance map. -/
structure BfsInv (hedges : List RawEdge) (rs : List String)
    (levels : Levels) (queue : List String) : Prop where
  sound : ∀ v n, levels.lookup v = some n → ReachesIn hedges rs v n
  rootsDone : ∀ r ∈ rs, levels.lookup r = some 0
  qLeveled : ∀ q ∈ queue, ∃ n, levels.lookup q = some n
  nodupQ : queue.Nodup
  monoQ : (queue.map (fun q => (levels.lookup q).getD 0)).Pairwise (· ≤ ·)
  bandQ : ∀ v n, levels.lookup v = some n → ∀ q ∈ queue, n ≤ (levels.lookup q).getD 0 + 1
  closed : ∀ a n, levels.lookup a = some n → a ∉ queue →
    ∀ b ∈ childrenOf hedges a, ∃ m, levels.lookup b = some m ∧ m ≤ n + 1

/-- Two isolated nodes, one with the empty-string id: `""` exists in the
base node set, yet `!focusNodeId` treats it as "no focus set". -/
def emptyIdGraph : WbsGraph :=
  ⟨[⟨""⟩, ⟨"A"⟩], []⟩

/-- A node with the empty-string id as hierarchy child of `X`, so that
the `""` node sits at depth 1 (position `x = 260`), away from the
origin. -/
def childEmptyIdGraph : WbsGraph :=
  ⟨[⟨"X"⟩, ⟨""⟩], [⟨"h", "HIERARCHY", "X", ""⟩]⟩

/-! ## Association-list (`Record<string, number>`) helpers -/

theorem lookup_append_some {l₁ l₂ : Levels} {v : String} {n : Nat}
    (h : l₁.lookup v = some n) : (l₁ ++ l₂).lookup v = some n := by
  rw [List.lookup_append, h]; rfl

theorem lookup_append_none {l₁ l₂ : Levels} {v : String} (h : l₁.lookup v = none) :
    (l₁ ++ l₂).lookup v = l₂.lookup v := by
  rw [List.lookup_append, h]; rfl

theorem lookup_single {c v : String} {k : Nat} :
    ([(c, k)] : Levels).lookup v = if v = c then some k else none := by
  by_cases h : v = c
  · subst h
    simp [List.lookup_cons]
  · simp [List.lookup_cons, beq_eq_false_iff_ne.mpr h, h]

theorem lookup_push_self {l : Levels} {c : String} {k : Nat} (h : l.lookup c = none) :
    (l ++ [(c, k)]).lookup c = some k := by
  rw [lookup_append_none h, lookup_single, if_pos rfl]

theorem lookup_push_ne {l : Levels} {c v : String} {k : Nat} (h : v ≠ c) :
    (l ++ [(c, k)]).lookup v = l.lookup v := by
  cases hv : l.lookup v with
  | some n => exact lookup_append_some hv
  | none => rw [lookup_append_none hv, lookup_single, if_neg h]

theorem lookup_push_cases {l : Levels} {c v : String} {k n : Nat}
    (h : (l ++ [(c, k)]).lookup v = some n) :
    l.lookup v = some n ∨ (l.lookup v = none ∧ v = c ∧ n = k) := by
  cases hv : l.lookup v with
  | some m =>
    left
    rw [lookup_append_some hv] at h
    exact h
  | none =>
    right
    rw [lookup_append_none hv, lookup_single] at h
    by_cases hc : v = c
    · rw [if_pos hc] at h
      exact ⟨rfl, hc, (Option.some.inj h).symm⟩
    · rw [if_neg hc] at h
      exact absurd h (by simp)

theorem lookup_push_none {l : Levels} {c v : String} {k : Nat}
    (h : (l ++ [(c, k)]).lookup v = none) : l.lookup v = none := by
  cases hv : l.lookup v with
  | some m => rw [lookup_append_some hv] at h; exact absurd h (by simp)
  | none => rfl

theorem lookup_map_zero (rs : List String) (v : String) :
    ((rs.map (fun r => (r, 0))).lookup v : Option Nat)
      = if v ∈ rs then some 0 else none := by
  induction rs with
  | nil => simp
  | cons r rs ih =>
    by_cases h : v = r
    · subst h
      simp [List.lookup_cons]
    · simp only [List.map_cons, List.lookup_cons, beq_eq_false_iff_ne.mpr h]
      rw [ih]
      simp [List.mem_cons, h]

/-! ## `dedupFirst` and duplicate-free queues -/

theorem dedupFirst_aux_nodup {α : Type} [DecidableEq α] (l : List α) :
    ∀ acc : List α, acc.Nodup →
      (l.foldl (fun acc x => if x ∈ acc then acc else acc ++ [x]) acc).Nodup := by
  induction l with
  | nil => exact fun acc h => h
  | cons x xs ih =>
    intro acc hacc
    simp only [List.foldl_cons]
    by_cases hx : x ∈ acc
    · rw [if_pos hx]
      exact ih acc hacc
    · rw [if_neg hx]
      refine ih _ (List.nodup_append.mpr ⟨hacc, List.nodup_singleton x, ?_⟩)
      exact List.disjoint_singleton.mpr hx

theorem dedupFirst_nodup {α : Type} [DecidableEq α] (l : List α) : (dedupFirst l).Nodup :=
  dedupFirst_aux_nodup l [] List.nodup_nil

theorem roots_nodup (g : WbsGraph) : (roots g).Nodup :=
  (dedupFirst_nodup _).filter _

/-! ## The `children.forEach` enqueue step -/

theorem enqueue_lookup_mono (lvl : Nat) :
    ∀ (cs : List String) (levels : Levels) (queue : List String) {v : String} {n : Nat},
      levels.lookup v = some n →
      (enqueueChildren lvl cs levels queue).1.lookup v = some n := by
  intro cs
  induction cs with
  | nil => intro levels queue v n h; exact h
  | cons c cs ih =>
    intro levels queue v n h
    simp only [enqueueChildren]
    cases hc : levels.lookup c with
    | some m => exact ih _ _ h
    | none => exact ih _ _ (lookup_append_some h)

theorem enqueue_lookup_cases (lvl : Nat) :
    ∀ (cs : List String) (levels : Levels) (queue : List String) {v : String} {n : Nat},
      (enqueueChildren lvl cs levels queue).1.lookup v = some n →
      levels.lookup v = some n ∨ (v ∈ cs ∧ n = lvl ∧ levels.lookup v = none) := by
  intro cs
  induction cs with
  | nil => intro levels queue v n h; exact Or.inl h
  | cons c cs ih =>
    intro levels queue v n h
    simp only [enqueueChildren] at h
    cases hc : levels.lookup c with
    | some m =>
      rw [hc] at h
      rcases ih _ _ h with h' | ⟨hin, hn, hnone⟩
      · exact Or.inl h'
      · exact Or.inr ⟨List.mem_cons_of_mem _ hin, hn, hnone⟩
    | none =>
      rw [hc] at h
      rcases ih _ _ h with h' | ⟨hin, hn, hnone⟩
      · rcases lookup_push_cases h' with h'' | ⟨hnone', hvc, hnk⟩
        · exact Or.inl h''
        · exact Or.inr ⟨hvc ▸ List.mem_cons_self c cs, hnk, hnone'⟩
      · exact Or.inr ⟨List.mem_cons_of_mem _ hin, hn, lookup_push_none hnone⟩

theorem enqueue_queue_mono (lvl : Nat) :
    ∀ (cs : List String) (levels : Levels) (queue : List String) {q : String},
      q ∈ queue → q ∈ (enqueueChildren lvl cs levels queue).2 := by
  intro cs
  induction cs with
  | nil => intro levels queue q hq; exact hq
  | cons c cs ih =>
    intro levels queue q hq
    simp only [enqueueChildren]
    cases hc : levels.lookup c with
    | some m => exact ih _ _ hq
    | none => exact ih _ _ (List.mem_append_left _ hq)

theorem enqueue_queue_shape (lvl : Nat) :
    ∀ (cs : List String) (levels : Levels) (queue : List String),
      ∃ news : List String,
        (enqueueChildren lvl cs levels queue).2 = queue ++ news ∧
        news.Nodup ∧
        ∀ q ∈ news, q ∈ cs ∧ levels.lookup q = none ∧
          (enqueueChildren lvl cs levels queue).1.lookup q = some lvl := by
  intro cs
  induction cs with
  | nil =>
    intro levels queue
    exact ⟨[], by simp [enqueueChildren], List.nodup_nil, by simp⟩
  | cons c cs ih =>
    intro levels queue
    cases hc : levels.lookup c with
    | some m =>
      obtain ⟨news, h1, h2, h3⟩ := ih levels queue
      refine ⟨news, ?_, h2, ?_⟩
      · simpa only [enqueueChildren, hc] using h1
      · intro q hq
        obtain ⟨hin, hnone, hfin⟩ := h3 q hq
        refine ⟨List.mem_cons_of_mem _ hin, hnone, ?_⟩
        simpa only [enqueueChildren, hc] using hfin
    | none =>
      obtain ⟨news, h1, h2, h3⟩ := ih (levels ++ [(c, lvl)]) (queue ++ [c])
      refine ⟨c :: news, ?_, ?_, ?_⟩
      · simp only [enqueueChildren, hc, h1, List.append_assoc, List.singleton_append]
      · refine List.nodup_cons.mpr ⟨fun hmem => ?_, h2⟩
        obtain ⟨_, hnone, _⟩ := h3 c hmem
        rw [lookup_push_self hc] at hnone
        exact Option.noConfusion hnone
      · intro q hq
        rcases List.mem_cons.mp hq with hqc | hq'
        · refine ⟨?_, ?_, ?_⟩
          · rw [hqc]; exact List.mem_cons_self _ _
          · rw [hqc]; exact hc
          · rw [hqc]
            have hq0 : ((levels ++ [(c, lvl)]).lookup c) = some lvl := lookup_push_self hc
            simpa only [enqueueChildren, hc] using enqueue_lookup_mono lvl cs _ (queue ++ [c]) hq0
        · obtain ⟨hin, hnone, hfin⟩ := h3 q hq'
          refine ⟨List.mem_cons_of_mem _ hin, lookup_push_none hnone, ?_⟩
          simpa only [enqueueChildren, hc] using hfin

theorem enqueue_child_done (lvl : Nat) :
    ∀ (cs : List String) (levels : Levels) (queue : List String) {c : String}, c ∈ cs →
      ∃ m, (enqueueChildren lvl cs levels queue).1.lookup c = some m ∧
        (levels.lookup c = some m ∨ m = lvl) := by
  intro cs
  induction cs with
  | nil => intro levels queue c hc; exact absurd hc (List.not_mem_nil c)
  | cons a cs ih =>
    intro levels queue c hc
    simp only [enqueueChildren]
    cases ha : levels.lookup a with
    | some k =>
      rcases List.mem_cons.mp hc with rfl | hc'
      · exact ⟨k, enqueue_lookup_mono lvl cs _ _ ha, Or.inl ha⟩
      · exact ih _ _ hc'
    | none =>
      rcases List.mem_cons.mp hc with rfl | hc'
      · exact ⟨lvl, enqueue_lookup_mono lvl cs _ _ (lookup_push_self ha), Or.inr rfl⟩
      · obtain ⟨m, hm, hcase⟩ := ih (levels ++ [(a, lvl)]) (queue ++ [a]) hc'
        refine ⟨m, hm, ?_⟩
        rcases hcase with hsome | rfl
        · rcases lookup_push_cases hsome with h' | ⟨_, _, rfl⟩
          · exact Or.inl h'
          · exact Or.inr rfl
        · exact Or.inr rfl

theorem enqueue_new_in_queue (lvl : Nat) :
    ∀ (cs : List String) (levels : Levels) (queue : List String) {v : String},
      levels.lookup v = none →
      ((enqueueChildren lvl cs levels queue).1.lookup v).isSome →
      v ∈ (enqueueChildren lvl cs levels queue).2 := by
  intro cs
  induction cs with
  | nil =>
    intro levels queue v hnone hsome
    simp only [enqueueChildren] at hsome
    rw [hnone] at hsome
    exact absurd hsome (by simp)
  | cons c cs ih =>
    intro levels queue v hnone hsome
    simp only [enqueueChildren] at hsome ⊢
    cases hc : levels.lookup c with
    | some m =>
      rw [hc] at hsome
      exact ih _ _ hnone hsome
    | none =>
      rw [hc] at hsome
      by_cases hvc : v = c
      · subst hvc
        exact enqueue_queue_mono lvl cs _ _ (List.mem_append_right _ (List.mem_singleton_self v))
      · rw [← lookup_push_ne (l := levels) (k := lvl) hvc] at hnone
        exact ih _ _ hnone hsome

/-! ## The loop measure -/

theorem countP_le_of_imp {α : Type} (l : List α) (p q : α → Bool)
    (h : ∀ x ∈ l, q x = true → p x = true) : l.countP q ≤ l.countP p := by
  induction l with
  | nil => simp
  | cons x xs ih =>
    have hx := h x (List.mem_cons_self x xs)
    have hxs := ih (fun y hy => h y (List.mem_cons_of_mem _ hy))
    rw [List.countP_cons, List.countP_cons]
    by_cases hq : q x = true
    · rw [if_pos hq, if_pos (hx hq)]
      omega
    · rw [if_neg hq]
      by_cases hp : p x = true
      · rw [if_pos hp]; omega
      · rw [if_neg hp]; omega

theorem countP_lt_of_mem {α : Type} {l : List α} {p q : α → Bool}
    (h : ∀ x ∈ l, q x = true → p x = true) {a : α} (ha : a ∈ l)
    (hp : p a = true) (hq : q a = false) : l.countP q < l.countP p := by
  induction l with
  | nil => exact absurd ha (List.not_mem_nil a)
  | cons x xs ih =>
    rw [List.countP_cons, List.countP_cons]
    have hxs := fun y hy => h y (List.mem_cons_of_mem x hy)
    rcases List.mem_cons.mp ha with hxa | ha'
    · have hpx : p x = true := hxa ▸ hp
      have hqx : q x = false := hxa ▸ hq
      rw [if_neg (by simp [hqx]), if_pos hpx]
      have := countP_le_of_imp xs p q hxs
      omega
    · have hlt := ih hxs ha'
      have hx := h x (List.mem_cons_self x xs)
      by_cases hqx : q x = true
      · rw [if_pos hqx, if_pos (hx hqx)]; omega
      · rw [if_neg hqx]
        by_cases hpx : p x = true
        · rw [if_pos hpx]; omega
        · rw [if_neg hpx]; omega

theorem childrenOf_subset_targets (hedges : List RawEdge) (p : String) :
    ∀ c ∈ childrenOf hedges p, c ∈ hedges.map (·.target) := by
  intro c hc
  simp only [childrenOf, List.mem_map] at hc
  obtain ⟨e, he, rfl⟩ := hc
  exact List.mem_map_of_mem _ (List.mem_of_mem_filter he)

theorem enqueue_measure (hedges : List RawEdge) (lvl : Nat) :
    ∀ (cs : List String) (levels : Levels) (queue : List String),
      (∀ c ∈ cs, c ∈ hedges.map (·.target)) →
      2 * unleveled hedges (enqueueChildren lvl cs levels queue).1
          + (enqueueChildren lvl cs levels queue).2.length
        ≤ 2 * unleveled hedges levels + queue.length := by
  intro cs
  induction cs with
  | nil => intro levels queue _; exact le_refl _
  | cons c cs ih =>
    intro levels queue hsub
    cases hc : levels.lookup c with
    | some m =>
      simp only [enqueueChildren, hc]
      exact ih _ _ (fun x hx => hsub x (List.mem_cons_of_mem _ hx))
    | none =>
      simp only [enqueueChildren, hc]
      have hstep : unleveled hedges (levels ++ [(c, lvl)]) < unleveled hedges levels := by
        refine countP_lt_of_mem ?_ (hsub c (List.mem_cons_self c cs)) ?_ ?_
        · intro t _ hq
          rw [Option.isNone_iff_eq_none] at hq ⊢
          exact lookup_push_none hq
        · rw [Option.isNone_iff_eq_none]
          exact hc
        · rw [Option.isNone_eq_false_iff, Option.isSome_iff_exists]
          exact ⟨lvl, lookup_push_self hc⟩
      have h1 := ih (levels ++ [(c, lvl)]) (queue ++ [c])
        (fun x hx => hsub x (List.mem_cons_of_mem _ hx))
      rw [List.length_append, List.length_singleton] at h1
      omega

/-! ## Preservation of the BFS invariant -/

theorem bfsInv_step (hedges : List RawEdge) (rs : List String)
    (levels : Levels) (p : String) (T : List String) {np : Nat}
    (hnp : levels.lookup p = some np)
    (inv : BfsInv hedges rs levels (p :: T)) :
    BfsInv hedges rs
      (enqueueChildren (np + 1) (childrenOf hedges p) levels T).1
      (enqueueChildren (np + 1) (childrenOf hedges p) levels T).2 := by
  obtain ⟨news, hsh, hnn, hnews⟩ := enqueue_queue_shape (np + 1) (childrenOf hedges p) levels T
  have hTval : ∀ q ∈ T, ∃ nq, levels.lookup q = some nq ∧
      (enqueueChildren (np + 1) (childrenOf hedges p) levels T).1.lookup q = some nq := by
    intro q hq
    obtain ⟨nq, hnq⟩ := inv.qLeveled q (List.mem_cons_of_mem _ hq)
    exact ⟨nq, hnq, enqueue_lookup_mono _ _ _ _ hnq⟩
  have hband : ∀ v n, levels.lookup v = some n → n ≤ np + 1 := by
    intro v n h
    have := inv.bandQ v n h p (List.mem_cons_self p T)
    rwa [hnp, Option.getD_some] at this
  have hmin : ∀ q ∈ T, np ≤ (levels.lookup q).getD 0 := by
    have hPW := inv.monoQ
    rw [List.map_cons, List.pairwise_cons] at hPW
    intro q hq
    have := hPW.1 _ (List.mem_map_of_mem _ hq)
    rwa [hnp, Option.getD_some] at this
  constructor
  · intro v n h
    rcases enqueue_lookup_cases _ _ _ _ h with hold | ⟨hin, rfl, _⟩
    · exact inv.sound v n hold
    · exact ReachesIn.step (inv.sound p np hnp) hin
  · intro r hr
    exact enqueue_lookup_mono _ _ _ _ (inv.rootsDone r hr)
  · intro q hq
    rw [hsh] at hq
    rcases List.mem_append.mp hq with hqT | hqN
    · obtain ⟨nq, _, h2⟩ := hTval q hqT
      exact ⟨nq, h2⟩
    · exact ⟨np + 1, (hnews q hqN).2.2⟩
  · rw [hsh]
    refine List.nodup_append.mpr ⟨(List.nodup_cons.mp inv.nodupQ).2, hnn, ?_⟩
    intro a haT haN
    obtain ⟨nq, hnq, _⟩ := hTval a haT
    rw [(hnews a haN).2.1] at hnq
    exact Option.noConfusion hnq
  · rw [hsh, List.map_append]
    refine List.pairwise_append.mpr ⟨?_, ?_, ?_⟩
    · have hmapeq : T.map
          (fun q => ((enqueueChildren (np + 1) (childrenOf hedges p) levels T).1.lookup q).getD 0)
          = T.map (fun q => (levels.lookup q).getD 0) := by
        refine List.map_congr_left fun q hq => ?_
        obtain ⟨nq, h1, h2⟩ := hTval q hq
        rw [h1, h2]
      rw [hmapeq]
      have hPW := inv.monoQ
      rw [List.map_cons, List.pairwise_cons] at hPW
      exact hPW.2
    · refine List.pairwise_of_forall_mem_list fun x hx y hy => ?_
      obtain ⟨qx, hqx, rfl⟩ := List.mem_map.mp hx
      obtain ⟨qy, hqy, rfl⟩ := List.mem_map.mp hy
      rw [(hnews qx hqx).2.2, (hnews qy hqy).2.2]
    · intro x hx y hy
      obtain ⟨qx, hqx, rfl⟩ := List.mem_map.mp hx
      obtain ⟨qy, hqy, rfl⟩ := List.mem_map.mp hy
      obtain ⟨nq, h1, h2⟩ := hTval qx hqx
      rw [h2, (hnews qy hqy).2.2, Option.getD_some, Option.getD_some]
      exact hband qx nq h1
  · intro v n h q hq
    rw [hsh] at hq
    have hn : n ≤ np + 1 := by
      rcases enqueue_lookup_cases _ _ _ _ h with hold | ⟨_, rfl, _⟩
      · exact hband v n hold
      · exact le_refl _
    rcases List.mem_append.mp hq with hqT | hqN
    · obtain ⟨nq, h1, h2⟩ := hTval q hqT
      rw [h2, Option.getD_some]
      have := hmin q hqT
      rw [h1, Option.getD_some] at this
      omega
    · rw [(hnews q hqN).2.2, Option.getD_some]
      omega
  · intro a n h hanot b hb
    rcases enqueue_lookup_cases _ _ _ _ h with hold | ⟨hain, rfl, hanone⟩
    · by_cases hap : a = p
      · subst hap
        have hn : n = np := by
          rw [hold] at hnp
          exact Option.some.inj hnp
        obtain ⟨m, hm, hcase⟩ := enqueue_child_done (np + 1) (childrenOf hedges a) levels T hb
        refine ⟨m, hm, ?_⟩
        rcases hcase with hsome | rfl
        · have := hband b m hsome
          omega
        · omega
      · have hanotT : a ∉ p :: T := by
          intro hmem
          rcases List.mem_cons.mp hmem with h' | h'
          · exact hap h'
          · exact hanot (by rw [hsh]; exact List.mem_append_left _ h')
        obtain ⟨m, hmb, hle⟩ := inv.closed a n hold hanotT b hb
        exact ⟨m, enqueue_lookup_mono _ _ _ _ hmb, hle⟩
    · exfalso
      refine hanot (enqueue_new_in_queue _ _ _ _ hanone ?_)
      rw [h]
      rfl

theorem bfsAux_inv (hedges : List RawEdge) (rs : List String) :
    ∀ (fuel : Nat) (levels : Levels) (queue : List String),
      BfsInv hedges rs levels queue →
      2 * unleveled hedges levels + queue.length ≤ fuel →
      BfsInv hedges rs (bfsAux hedges fuel levels queue) [] := by
  intro fuel
  induction fuel with
  | zero =>
    intro levels queue inv hfuel
    have hq : queue = [] := List.length_eq_zero.mp (by omega)
    subst hq
    exact inv
  | succ fuel ih =>
    intro levels queue inv hfuel
    cases queue with
    | nil => exact inv
    | cons p T =>
      obtain ⟨np, hnp⟩ := inv.qLeveled p (List.mem_cons_self p T)
      have hstep := bfsInv_step hedges rs levels p T hnp inv
      have hgoal : bfsAux hedges (fuel + 1) levels (p :: T) =
          bfsAux hedges fuel
            (enqueueChildren (np + 1) (childrenOf hedges p) levels T).1
            (enqueueChildren (np + 1) (childrenOf hedges p) levels T).2 := by
        simp only [bfsAux, hnp, Option.getD_some]
      rw [hgoal]
      refine ih _ _ hstep ?_
      have hme := enqueue_measure hedges (np + 1) (childrenOf hedges p) levels T
        (childrenOf_subset_targets hedges p)
      simp only [List.length_cons] at hfuel
      omega

theorem initLevels_inv (g : WbsGraph) :
    BfsInv (hierarchyEdges g) (roots g) (initLevels g) (roots g) := by
  have hlk : ∀ v : String, (initLevels g).lookup v
      = if v ∈ roots g then some 0 else none := fun v => lookup_map_zero (roots g) v
  constructor
  · intro v n h
    rw [hlk] at h
    by_cases hv : v ∈ roots g
    · rw [if_pos hv] at h
      exact (Option.some.inj h) ▸ ReachesIn.root hv
    · rw [if_neg hv] at h
      exact Option.noConfusion h
  · intro r hr
    rw [hlk, if_pos hr]
  · intro q hq
    exact ⟨0, by rw [hlk, if_pos hq]⟩
  · exact roots_nodup g
  · refine List.pairwise_of_forall_mem_list fun x hx y hy => ?_
    obtain ⟨qx, hqx, rfl⟩ := List.mem_map.mp hx
    obtain ⟨qy, hqy, rfl⟩ := List.mem_map.mp hy
    rw [hlk, if_pos hqx, hlk, if_pos hqy]
  · intro v n h q hq
    rw [hlk] at h
    by_cases hv : v ∈ roots g
    · rw [if_pos hv] at h
      have : n = 0 := (Option.some.inj h).symm
      omega
    · rw [if_neg hv] at h
      exact Option.noConfusion h
  · intro a n h hanot b hb
    exfalso
    rw [hlk] at h
    by_cases ha : a ∈ roots g
    · exact hanot ha
    · rw [if_neg ha] at h
      exact Option.noConfusion h

theorem levelsMap_inv (g : WbsGraph) :
    BfsInv (hierarchyEdges g) (roots g) (levelsMap g) [] :=
  bfsAux_inv _ _ (bfsFuel g) (initLevels g) (roots g) (initLevels_inv g) (le_of_eq rfl)

theorem reaches_levelled (g : WbsGraph) {v : String} {n : Nat}
    (h : ReachesIn (hierarchyEdges g) (roots g) v n) :
    ∃ m, (levelsMap g).lookup v = some m ∧ m ≤ n := by
  induction h with
  | root hr => exact ⟨0, (levelsMap_inv g).rootsDone _ hr, le_refl 0⟩
  | step ha hb ih =>
    obtain ⟨ma, hma, hle⟩ := ih
    obtain ⟨mb, hmb, hle'⟩ := (levelsMap_inv g).closed _ _ hma (List.not_mem_nil _) _ hb
    exact ⟨mb, hmb, by omega⟩

/-- C1: for every input graph (in particular every graph with acyclic
hierarchy edges), the depth assigned by the layout engine's BFS is the
multi-source BFS distance: `levelOf g v` is the least length of a
hierarchy-edge path from a root to `v` (so every root gets depth 0),
and every id unreachable from all roots gets the fallback depth 0
(`sInf ∅ = 0` and the explicit conjuncts below). -/
theorem levelOf_eq_bfs_distance (g : WbsGraph) (v : String) :
    levelOf g v = sInf {n | ReachesIn (hierarchyEdges g) (roots g) v n}
  ∧ (v ∈ roots g → levelOf g v = 0)
  ∧ ((¬ ∃ n, ReachesIn (hierarchyEdges g) (roots g) v n) → levelOf g v = 0) := by
  have hmain : levelOf g v = sInf {n | ReachesIn (hierarchyEdges g) (roots g) v n} := by
    cases h : (levelsMap g).lookup v with
    | none =>
      have hempty : {n | ReachesIn (hierarchyEdges g) (roots g) v n} = ∅ := by
        refine Set.eq_empty_iff_forall_not_mem.mpr fun n hn => ?_
        obtain ⟨m, hm, _⟩ := reaches_levelled g hn
        rw [h] at hm
        exact Option.noConfusion hm
      rw [levelOf, h, hempty, Nat.sInf_empty]
      rfl
    | some m =>
      have hmem : m ∈ {n | ReachesIn (hierarchyEdges g) (roots g) v n} :=
        (levelsMap_inv g).sound v m h
      have hlb : ∀ n ∈ {n | ReachesIn (hierarchyEdges g) (roots g) v n}, m ≤ n := by
        intro n hn
        obtain ⟨m', hm', hle⟩ := reaches_levelled g hn
        rw [h] at hm'
        exact (Option.some.inj hm') ▸ hle
      have h1 : sInf {n | ReachesIn (hierarchyEdges g) (roots g) v n} ≤ m := Nat.sInf_le hmem
      have h2 : m ≤ sInf {n | ReachesIn (hierarchyEdges g) (roots g) v n} :=
        hlb _ (Nat.sInf_mem ⟨m, hmem⟩)
      rw [levelOf, h, Option.getD_some]
      omega
  refine ⟨hmain, ?_, ?_⟩
  · intro hv
    rw [levelOf, (levelsMap_inv g).rootsDone v hv, Option.getD_some]
  · intro hnone
    cases h : (levelsMap g).lookup v with
    | none => rw [levelOf, h]; rfl
    | some m => exact absurd ⟨m, (levelsMap_inv g).sound v m h⟩ hnone

/-- C1 witness: in the worked example, `A` is a root and receives
depth 0 via the theorem. -/
theorem levelOf_eq_bfs_distance_witness :
    ("A" ∈ roots exGraph) ∧ levelOf exGraph "A" = 0 :=
  ⟨by decide, (levelOf_eq_bfs_distance exGraph "A").2.1 (by decide)⟩

/-! ## The sibling comparator and the per-level sort -/

theorem charListCmp_gt_asymm : ∀ (as bs : List Char),
    charListCmp as bs = Ordering.gt → charListCmp bs as ≠ Ordering.gt := by
  intro as
  induction as with
  | nil =>
    intro bs h
    cases bs with
    | nil => simp [charListCmp] at h
    | cons b bs => simp [charListCmp] at h
  | cons a as ih =>
    intro bs h
    cases bs with
    | nil => simp [charListCmp]
    | cons b bs =>
      simp only [charListCmp] at h ⊢
      by_cases h1 : a.toNat < b.toNat
      · rw [if_pos h1] at h
        exact absurd h (by simp)
      · rw [if_neg h1] at h
        by_cases h2 : b.toNat < a.toNat
        · rw [if_pos h2]
          simp
        · rw [if_neg h2] at h
          rw [if_neg h2, if_neg h1]
          exact ih bs h

theorem strCmp_gt_asymm (a b : String) :
    strCmp a b = Ordering.gt → strCmp b a ≠ Ordering.gt :=
  charListCmp_gt_asymm a.toList b.toList

theorem idCompare_gt_asymm (a b : String) :
    idCompare a b = Ordering.gt → idCompare b a ≠ Ordering.gt := by
  intro h
  simp only [idCompare] at h ⊢
  cases ha : parseNum a with
  | some x =>
    cases hb : parseNum b with
    | some y =>
      rw [ha, hb] at h
      replace h : (if x ≠ y then (if x < y then Ordering.lt else Ordering.gt) else strCmp a b)
          = Ordering.gt := h
      show (if y ≠ x then (if y < x then Ordering.lt else Ordering.gt) else strCmp b a)
          ≠ Ordering.gt
      by_cases hxy : x ≠ y
      · rw [if_pos hxy] at h
        by_cases hlt : x < y
        · rw [if_pos hlt] at h
          exact absurd h (by simp)
        · have hyx : y < x := by omega
          rw [if_pos (Ne.symm hxy), if_pos hyx]
          simp
      · rw [if_neg hxy] at h
        rw [if_neg (fun hne => hxy (Ne.symm hne))]
        exact strCmp_gt_asymm a b h
    | none =>
      rw [ha, hb] at h
      replace h : strCmp a b = Ordering.gt := h
      show strCmp b a ≠ Ordering.gt
      exact strCmp_gt_asymm a b h
  | none =>
    rw [ha] at h
    replace h : strCmp a b = Ordering.gt := h
    cases hb : parseNum b with
    | some y =>
      show strCmp b a ≠ Ordering.gt
      exact strCmp_gt_asymm a b h
    | none =>
      show strCmp b a ≠ Ordering.gt
      exact strCmp_gt_asymm a b h

theorem idLe_iff_ne_gt (a b : String) : idLe a b = true ↔ idCompare a b ≠ Ordering.gt := by
  unfold idLe
  cases idCompare a b <;> decide

theorem idLe_total (a b : String) : idLe a b = true ∨ idLe b a = true := by
  by_cases h : idCompare a b = Ordering.gt
  · exact Or.inr ((idLe_iff_ne_gt b a).mpr (idCompare_gt_asymm a b h))
  · exact Or.inl ((idLe_iff_ne_gt a b).mpr h)

theorem mem_insertSorted {α : Type} (le : α → α → Bool) (x : α) :
    ∀ (l : List α) (v : α), v ∈ insertSorted le x l ↔ v = x ∨ v ∈ l := by
  intro l
  induction l with
  | nil =>
    intro v
    simp [insertSorted]
  | cons y ys ih =>
    intro v
    simp only [insertSorted]
    by_cases h : le x y = true
    · rw [if_pos h]
      simp only [List.mem_cons]
    · rw [if_neg h]
      simp only [List.mem_cons, ih]
      tauto

theorem insertSorted_perm {α : Type} (le : α → α → Bool) (x : α) :
    ∀ l : List α, (insertSorted le x l).Perm (x :: l) := by
  intro l
  induction l with
  | nil => exact List.Perm.refl _
  | cons y ys ih =>
    simp only [insertSorted]
    by_cases h : le x y = true
    · rw [if_pos h]
    · rw [if_neg h]
      exact (ih.cons y).trans (List.Perm.swap x y ys)

theorem insSort_perm {α : Type} (le : α → α → Bool) :
    ∀ l : List α, (insSort le l).Perm l := by
  intro l
  induction l with
  | nil => exact List.Perm.refl _
  | cons x xs ih => exact (insertSorted_perm le x _).trans (ih.cons x)

theorem insertSorted_pairwise {α : Type} (le : α → α → Bool) (x : α) :
    ∀ l : List α,
      l.Pairwise (fun a b => le a b = true) →
      (∀ y ∈ l, le x y = true ∨ le y x = true) →
      (∀ a ∈ x :: l, ∀ b ∈ x :: l, ∀ c ∈ x :: l,
        le a b = true → le b c = true → le a c = true) →
      (insertSorted le x l).Pairwise (fun a b => le a b = true) := by
  intro l
  induction l with
  | nil =>
    intro _ _ _
    simp [insertSorted]
  | cons y ys ih =>
    intro hpw htot htr
    simp only [insertSorted]
    by_cases h : le x y = true
    · rw [if_pos h]
      refine List.pairwise_cons.mpr ⟨?_, hpw⟩
      intro b hb
      rcases List.mem_cons.mp hb with rfl | hb'
      · exact h
      · refine htr x (List.mem_cons_self _ _) y
          (List.mem_cons_of_mem _ (List.mem_cons_self _ _)) b
          (List.mem_cons_of_mem _ (List.mem_cons_of_mem _ hb')) h
          ((List.pairwise_cons.mp hpw).1 b hb')
    · rw [if_neg h]
      have hyx : le y x = true := (htot y (List.mem_cons_self y ys)).resolve_left h
      have hlift : ∀ z, z ∈ x :: ys → z ∈ x :: y :: ys := by
        intro z hz
        rcases List.mem_cons.mp hz with rfl | hz'
        · exact List.mem_cons_self _ _
        · exact List.mem_cons_of_mem _ (List.mem_cons_of_mem _ hz')
      refine List.pairwise_cons.mpr ⟨?_, ?_⟩
      · intro b hb
        rcases (mem_insertSorted le x ys b).mp hb with rfl | hb'
        · exact hyx
        · exact (List.pairwise_cons.mp hpw).1 b hb'
      · refine ih (List.pairwise_cons.mp hpw).2
          (fun z hz => htot z (List.mem_cons_of_mem _ hz)) ?_
        intro a ha b hb c hc
        exact htr a (hlift a ha) b (hlift b hb) c (hlift c hc)

theorem insSort_pairwise {α : Type} (le : α → α → Bool) :
    ∀ l : List α,
      (∀ a b : α, le a b = true ∨ le b a = true) →
      (∀ a ∈ l, ∀ b ∈ l, ∀ c ∈ l, le a b = true → le b c = true → le a c = true) →
      (insSort le l).Pairwise (fun a b => le a b = true) := by
  intro l
  induction l with
  | nil =>
    intro _ _
    exact List.Pairwise.nil
  | cons x xs ih =>
    intro htot htr
    simp only [insSort]
    have hsub : ∀ z ∈ insSort le xs, z ∈ xs := fun z hz => (insSort_perm le xs).subset hz
    have hlift : ∀ z, z ∈ x :: insSort le xs → z ∈ x :: xs := by
      intro z hz
      rcases List.mem_cons.mp hz with rfl | hz'
      · exact List.mem_cons_self _ _
      · exact List.mem_cons_of_mem _ (hsub z hz')
    refine insertSorted_pairwise le x (insSort le xs)
      (ih (fun a b => htot a b)
        (fun a ha b hb c hc => htr a (List.mem_cons_of_mem _ ha) b (List.mem_cons_of_mem _ hb)
          c (List.mem_cons_of_mem _ hc)))
      (fun y _ => htot x y) ?_
    intro a ha b hb c hc
    exact htr a (hlift a ha) b (hlift b hb) c (hlift c hc)

/-- C5 counterexample: the sibling comparator is not a total order.  On
the ids `"2"`, `"10"`, `"1a"` it is cyclic (`"2"` before `"10"`
numerically, `"10"` before `"1a"` and `"1a"` before `"2"`
lexicographically), and on the depth-0 bucket of `cycleGraph` the
computed sibling order is consequently not sorted by the comparator
relation: no output order could be. -/
theorem comparator_cyclic_counterexample :
    (idLe "2" "10" = true ∧ idLe "10" "1a" = true ∧ idLe "1a" "2" = true ∧
      ("2" : String) ≠ "10" ∧ ("10" : String) ≠ "1a" ∧ ("1a" : String) ≠ "2")
  ∧ ¬ (sortedGroupAt cycleGraph 0).Pairwise (fun a b => idLe a b = true) :=
  ⟨by decide, by decide⟩

/-- C5 (amended): the per-level sort is deterministic (a pure function
of the input) and always outputs a permutation of the depth bucket;
whenever the comparator relation is transitive on the ids of the bucket
(for example when all ids are decimal-numeric, or none are), the output
is sorted by the comparator: numeric comparison when both ids parse as
numbers and differ, lexicographic otherwise.  The comparator is total
(`idLe_total`) but not transitive in general
(`comparator_cyclic_counterexample`), so the unconditional "total
order" wording of the original claim is false. -/
theorem sortedGroup_sorted_of_transitive (g : WbsGraph) (l : Nat)
    (htr : ∀ a ∈ groupAt g l, ∀ b ∈ groupAt g l, ∀ c ∈ groupAt g l,
        idLe a b = true → idLe b c = true → idLe a c = true) :
    (sortedGroupAt g l).Perm (groupAt g l)
  ∧ (sortedGroupAt g l).Pairwise (fun a b => idLe a b = true) :=
  ⟨insSort_perm idLe _, insSort_pairwise idLe _ idLe_total htr⟩

/-- C5 witness: the depth-1 bucket `["B", "C"]` of the worked example
satisfies the transitivity hypothesis, and the theorem yields its sorted
order. -/
theorem sortedGroup_sorted_of_transitive_witness :
    (∀ a ∈ groupAt exGraph 1, ∀ b ∈ groupAt exGraph 1, ∀ c ∈ groupAt exGraph 1,
        idLe a b = true → idLe b c = true → idLe a c = true)
  ∧ ((sortedGroupAt exGraph 1).Perm (groupAt exGraph 1)
      ∧ (sortedGroupAt exGraph 1).Pairwise (fun a b => idLe a b = true)) :=
  ⟨by decide, sortedGroup_sorted_of_transitive exGraph 1 (by decide)⟩

/-! ## Focus/view selector helpers -/

theorem find?_id_of_mem {l : List PosNode} {f : String} (h : f ∈ l.map (·.id)) :
    ∃ c, l.find? (fun n => n.id == f) = some c ∧ c.id = f := by
  induction l with
  | nil => simp at h
  | cons n ns ih =>
    by_cases hn : n.id = f
    · exact ⟨n, List.find?_cons_of_pos _ (by simp [hn]), hn⟩
    · have h' : f ∈ ns.map (·.id) := by
        rcases (by simpa using h : f = n.id ∨ ∃ a ∈ ns, a.id = f) with h'' | ⟨a, ha, haid⟩
        · exact absurd h''.symm hn
        · exact List.mem_map.mpr ⟨a, ha, haid⟩
      obtain ⟨c, hc, hcid⟩ := ih h'
      exact ⟨c, by rw [List.find?_cons_of_neg _ (by simp [hn])]; exact hc, hcid⟩

theorem basePositioned_ids (g : WbsGraph) :
    (basePositioned g).map (·.id) = (baseNodesSeq g).map (·.id) := by
  rw [basePositioned, List.map_map]
  rfl

theorem deriveView_local_eq {g : WbsGraph} {F : String} (hne : F ≠ "")
    (hmem : F ∈ (baseNodesSeq g).map (·.id)) :
    ∃ c, (basePositioned g).find? (fun n => n.id == F) = some c ∧ c.id = F ∧
      deriveView g ⟨ViewMode.LOCAL, some F⟩ = (starNodes g F c, incidentEdges g F) := by
  have hmem' : F ∈ (basePositioned g).map (·.id) := by
    rw [basePositioned_ids]
    exact hmem
  obtain ⟨c, hc, hcid⟩ := find?_id_of_mem hmem'
  refine ⟨c, hc, hcid, ?_⟩
  simp only [deriveView]
  rw [if_neg hne, hc]

theorem mapWithIndex_ids (f : Nat → PosNode → PosNode) (hf : ∀ i n, (f i n).id = n.id) :
    ∀ (s : Nat) (l : List PosNode), (mapWithIndex f s l).map (·.id) = l.map (·.id) := by
  intro s l
  induction l generalizing s with
  | nil => rfl
  | cons n ns ih => simp [mapWithIndex, hf, ih]

theorem mapWithIndex_getElem? {α β : Type} (f : Nat → α → β) :
    ∀ (s : Nat) (l : List α) (i : Nat),
      (mapWithIndex f s l)[i]? = l[i]?.map (f (s + i)) := by
  intro s l
  induction l generalizing s with
  | nil => intro i; simp [mapWithIndex]
  | cons n ns ih =>
    intro i
    cases i with
    | zero => simp [mapWithIndex]
    | succ j =>
      simp only [mapWithIndex, List.getElem?_cons_succ]
      rw [ih (s + 1) j]
      have harith : s + 1 + j = s + (j + 1) := by omega
      rw [harith]

theorem mem_addId (acc : List String) (v w : String) : v ∈ addId acc w ↔ v ∈ acc ∨ v = w := by
  unfold addId
  by_cases h : w ∈ acc
  · rw [if_pos h]
    exact ⟨Or.inl, fun hv => hv.elim id (fun he => he ▸ h)⟩
  · rw [if_neg h]
    simp [List.mem_append]

theorem neighborFold_mem (F : String) :
    ∀ (es : List RawEdge) (acc : List String) (v : String),
      v ∈ es.foldl
        (fun acc e =>
          let acc1 := if e.source == F then addId acc e.target else acc
          if e.target == F then addId acc1 e.source else acc1)
        acc ↔
      v ∈ acc ∨ ∃ e ∈ es, (e.source = F ∧ e.target = v) ∨ (e.target = F ∧ e.source = v) := by
  intro es
  induction es with
  | nil =>
    intro acc v
    simp
  | cons e es ih =>
    intro acc v
    rw [List.foldl_cons, ih]
    have hstep : v ∈ (if e.target == F then
          addId (if e.source == F then addId acc e.target else acc) e.source
        else (if e.source == F then addId acc e.target else acc)) ↔
        v ∈ acc ∨ (e.source = F ∧ e.target = v) ∨ (e.target = F ∧ e.source = v) := by
      by_cases hs : e.source = F
      · by_cases ht : e.target = F
        · rw [if_pos (by simp [beq_iff_eq, ht]), if_pos (by simp [beq_iff_eq, hs]),
            mem_addId, mem_addId]
          constructor
          · rintro ((hv | hv) | hv)
            · exact Or.inl hv
            · exact Or.inr (Or.inl ⟨hs, hv.symm⟩)
            · exact Or.inr (Or.inr ⟨ht, hv.symm⟩)
          · rintro (hv | ⟨_, hv⟩ | ⟨_, hv⟩)
            · exact Or.inl (Or.inl hv)
            · exact Or.inl (Or.inr hv.symm)
            · exact Or.inr hv.symm
        · rw [if_neg (by simp [beq_iff_eq, ht]), if_pos (by simp [beq_iff_eq, hs]), mem_addId]
          constructor
          · rintro (hv | hv)
            · exact Or.inl hv
            · exact Or.inr (Or.inl ⟨hs, hv.symm⟩)
          · rintro (hv | ⟨_, hv⟩ | ⟨hF, _⟩)
            · exact Or.inl hv
            · exact Or.inr hv.symm
            · exact absurd hF ht
      · by_cases ht : e.target = F
        · rw [if_pos (by simp [beq_iff_eq, ht]), if_neg (by simp [beq_iff_eq, hs]), mem_addId]
          constructor
          · rintro (hv | hv)
            · exact Or.inl hv
            · exact Or.inr (Or.inr ⟨ht, hv.symm⟩)
          · rintro (hv | ⟨hF, _⟩ | ⟨_, hv⟩)
            · exact Or.inl hv
            · exact absurd hF hs
            · exact Or.inr hv.symm
        · rw [if_neg (by simp [beq_iff_eq, ht]), if_neg (by simp [beq_iff_eq, hs])]
          constructor
          · exact fun hv => Or.inl hv
          · rintro (hv | ⟨hF, _⟩ | ⟨hF, _⟩)
            · exact hv
            · exact absurd hF hs
            · exact absurd hF ht
    constructor
    · rintro (h1 | ⟨e', he', hc'⟩)
      · rcases hstep.mp h1 with hv | hcase
        · exact Or.inl hv
        · exact Or.inr ⟨e, List.mem_cons_self _ _, hcase⟩
      · exact Or.inr ⟨e', List.mem_cons_of_mem _ he', hc'⟩
    · rintro (hv | ⟨e', he', hc'⟩)
      · exact Or.inl (hstep.mpr (Or.inl hv))
      · rcases List.mem_cons.mp he' with rfl | he''
        · exact Or.inl (hstep.mpr (Or.inr hc'))
        · exact Or.inr ⟨e', he'', hc'⟩

theorem filter_append_not_perm {α : Type} (p : α → Bool) :
    ∀ l : List α, (l.filter p ++ l.filter (fun x => !(p x))).Perm l := by
  intro l
  induction l with
  | nil => exact List.Perm.refl _
  | cons x xs ih =>
    by_cases h : p x = true
    · rw [List.filter_cons_of_pos h, List.filter_cons_of_neg (by simp [h]), List.cons_append]
      exact ih.cons x
    · have hfalse : p x = false := Bool.eq_false_iff.mpr h
      rw [List.filter_cons_of_neg h, List.filter_cons_of_pos (by rw [hfalse]; rfl)]
      exact List.perm_middle.trans (ih.cons x)

theorem hier_dep_perm (g : WbsGraph) :
    (hierarchyEdges g ++ dependencyEdges g).Perm g.edges :=
  filter_append_not_perm _ g.edges

theorem mem_hier_dep (g : WbsGraph) (e : RawEdge) :
    e ∈ hierarchyEdges g ++ dependencyEdges g ↔ e ∈ g.edges :=
  (hier_dep_perm g).mem_iff

theorem mem_incidentEdges (g : WbsGraph) (F : String) (e : RawEdge) :
    e ∈ incidentEdges g F ↔ e ∈ g.edges ∧ (e.source = F ∨ e.target = F) := by
  rw [incidentEdges, List.mem_filter, mem_hier_dep]
  simp [beq_iff_eq]

theorem isNeighborOf_iff (g : WbsGraph) (F v : String) :
    isNeighborOf g F v = true ↔
      ∃ e ∈ g.edges, (e.source = F ∧ e.target = v) ∨ (e.target = F ∧ e.source = v) := by
  simp [isNeighborOf, List.any_eq_true, beq_iff_eq]

theorem mem_neighborIdList (g : WbsGraph) (F v : String) :
    v ∈ neighborIdList g F ↔ isNeighborOf g F v = true := by
  rw [neighborIdList, neighborFold_mem, isNeighborOf_iff]
  simp only [List.not_mem_nil, false_or]
  constructor
  · rintro ⟨e, he, hcase⟩
    exact ⟨e, ((mem_incidentEdges g F e).mp he).1, hcase⟩
  · rintro ⟨e, he, hcase⟩
    refine ⟨e, (mem_incidentEdges g F e).mpr ⟨he, ?_⟩, hcase⟩
    rcases hcase with ⟨h1, _⟩ | ⟨h1, _⟩
    · exact Or.inl h1
    · exact Or.inr h1

theorem map_id_filter (q : String → Bool) (l : List PosNode) :
    (l.filter (fun n => q n.id)).map (·.id) = (l.map (·.id)).filter q := by
  rw [List.filter_map]
  rfl

theorem localNeighbors_ids (g : WbsGraph) (F : String) :
    (localNeighbors g F).map (·.id)
      = ((baseNodesSeq g).map (·.id)).filter (fun v => isNeighborOf g F v) := by
  rw [localNeighbors]
  have : ∀ n : PosNode, ((neighborIdList g F).contains n.id) = isNeighborOf g F n.id := by
    intro n
    rw [Bool.eq_iff_iff]
    constructor
    · intro hc
      exact (mem_neighborIdList g F n.id).mp (List.elem_iff.mp hc)
    · intro hn
      exact List.elem_iff.mpr ((mem_neighborIdList g F n.id).mpr hn)
  rw [List.filter_congr (fun n _ => this n), map_id_filter, basePositioned_ids]

theorem starNodes_ids (g : WbsGraph) (F : String) (c : PosNode) :
    (starNodes g F c).map (·.id) = c.id :: (localNeighbors g F).map (·.id) := by
  simp only [starNodes]
  by_cases h : (localNeighbors g F).length = 0
  · rw [if_pos h]
    have hnil : localNeighbors g F = [] := List.length_eq_zero.mp h
    simp [hnil]
  · rw [if_neg h]
    simp only [List.map_cons]
    congr 1
    exact mapWithIndex_ids
      (fun i n => ⟨n.id, starX i (localNeighbors g F).length, starY i (localNeighbors g F).length⟩)
      (fun i n => rfl) 0 (localNeighbors g F)

/-- C2 counterexample: the claim quantifies over every focus id that
exists in the base node set, but the source guard `!focusNodeId` treats
the empty-string id as "no focus set" and falls back to the global
view: with base nodes `""` and `"A"` and no edges, the LOCAL view
focused on `""` should per the claim show exactly `[""]`, yet it shows
the full base sequence. -/
theorem localView_contents_counterexample :
    (("" : String) ∈ (baseNodesSeq emptyIdGraph).map (·.id))
  ∧ ¬ ((deriveView emptyIdGraph ⟨ViewMode.LOCAL, some ""⟩).1.map (·.id)
        = "" :: ((baseNodesSeq emptyIdGraph).map (·.id)).filter
            (fun v => isNeighborOf emptyIdGraph "" v)) :=
  ⟨by decide, by decide⟩

/-- C2 (amended, adding "and is non-empty" to the focus id): for every
non-empty focus id `F` present in the base node sequence, the LOCAL
view's nodes are exactly `F` followed by the base nodes whose id is the
other endpoint of some hierarchy or dependency edge incident to `F` (in
base order), and its edge sequence is exactly the input edges incident
to `F` (as a permutation: hierarchy edges listed before dependency
edges), so its length is the number of incident edges. -/
theorem localView_contents (g : WbsGraph) (F : String) (hne : F ≠ "")
    (hmem : F ∈ (baseNodesSeq g).map (·.id)) :
    ((deriveView g ⟨ViewMode.LOCAL, some F⟩).1.map (·.id)
        = F :: ((baseNodesSeq g).map (·.id)).filter (fun v => isNeighborOf g F v))
  ∧ (deriveView g ⟨ViewMode.LOCAL, some F⟩).2.Perm
      (g.edges.filter (fun e => e.source == F || e.target == F))
  ∧ (deriveView g ⟨ViewMode.LOCAL, some F⟩).2.length
      = g.edges.countP (fun e => e.source == F || e.target == F) := by
  obtain ⟨c, hc, hcid, hdv⟩ := deriveView_local_eq hne hmem
  have hperm : (incidentEdges g F).Perm
      (g.edges.filter (fun e => e.source == F || e.target == F)) :=
    (hier_dep_perm g).filter _
  refine ⟨?_, ?_, ?_⟩
  · rw [hdv]
    show (starNodes g F c).map (·.id) = _
    rw [starNodes_ids, hcid, localNeighbors_ids]
  · rw [hdv]
    exact hperm
  · rw [hdv]
    show (incidentEdges g F).length = _
    rw [hperm.length_eq, List.countP_eq_length_filter]

/-- C2 witness: focusing `B` in the worked example yields nodes
`[B, A, C]` and both incident edges. -/
theorem localView_contents_witness :
    (("B" : String) ≠ "" ∧ "B" ∈ (baseNodesSeq exGraph).map (·.id))
  ∧ (((deriveView exGraph ⟨ViewMode.LOCAL, some "B"⟩).1.map (·.id)
        = "B" :: ((baseNodesSeq exGraph).map (·.id)).filter
            (fun v => isNeighborOf exGraph "B" v))
      ∧ (deriveView exGraph ⟨ViewMode.LOCAL, some "B"⟩).2.Perm
          (exGraph.edges.filter (fun e => e.source == "B" || e.target == "B"))
      ∧ (deriveView exGraph ⟨ViewMode.LOCAL, some "B"⟩).2.length
          = exGraph.edges.countP (fun e => e.source == "B" || e.target == "B")) :=
  ⟨⟨by decide, by decide⟩, localView_contents exGraph "B" (by decide) (by decide)⟩

/-- C3: whenever the mode is GLOBAL, or no focus id is set, or the focus
id does not occur in the base node sequence, the selector returns the
full positioned base sequence together with the hierarchy edges only:
every returned edge has type `"HIERARCHY"` (so no dependency edge is
ever shown), and a LOCAL view with a non-existent focus id equals the
GLOBAL view. -/
theorem globalView_fallback (g : WbsGraph) (vs : ViewState)
    (h : vs.mode = ViewMode.GLOBAL ∨ vs.focusNodeId = none ∨
        (∃ f, vs.focusNodeId = some f ∧ f ∉ (baseNodesSeq g).map (·.id))) :
    deriveView g vs = (basePositioned g, hierarchyEdges g)
  ∧ (∀ e ∈ (deriveView g vs).2, e.type = "HIERARCHY")
  ∧ deriveView g vs = deriveView g ⟨ViewMode.GLOBAL, none⟩ := by
  obtain ⟨m, f⟩ := vs
  have hglob : deriveView g ⟨m, f⟩ = (basePositioned g, hierarchyEdges g) := by
    rcases h with h | h | ⟨f', hf', hnm⟩
    · cases h
      rfl
    · cases m
      · rfl
      · cases h
        rfl
    · cases m
      · rfl
      · cases hf'
        simp only [deriveView]
        by_cases hf0 : f' = ""
        · rw [if_pos hf0]
        · rw [if_neg hf0]
          have hfind : (basePositioned g).find? (fun n => n.id == f') = none := by
            rw [List.find?_eq_none]
            intro x hx
            simp only [beq_iff_eq]
            intro hxid
            refine hnm ?_
            rw [← basePositioned_ids]
            exact List.mem_map.mpr ⟨x, hx, hxid⟩
          rw [hfind]
  refine ⟨hglob, ?_, ?_⟩
  · rw [hglob]
    intro e he
    have := List.of_mem_filter he
    simpa [beq_iff_eq] using this
  · rw [hglob]
    rfl

/-- C3 witness: a LOCAL view with the non-existent focus id `"ZZ"` on
the worked example behaves as the GLOBAL view. -/
theorem globalView_fallback_witness :
    (("ZZ" : String) ∉ (baseNodesSeq exGraph).map (·.id))
  ∧ (deriveView exGraph ⟨ViewMode.LOCAL, some "ZZ"⟩
        = (basePositioned exGraph, hierarchyEdges exGraph)
      ∧ (∀ e ∈ (deriveView exGraph ⟨ViewMode.LOCAL, some "ZZ"⟩).2, e.type = "HIERARCHY")
      ∧ deriveView exGraph ⟨ViewMode.LOCAL, some "ZZ"⟩
          = deriveView exGraph ⟨ViewMode.GLOBAL, none⟩) :=
  ⟨by decide,
    globalView_fallback exGraph ⟨ViewMode.LOCAL, some "ZZ"⟩
      (Or.inr (Or.inr ⟨"ZZ", rfl, by decide⟩))⟩

theorem starNodes_getElem (g : WbsGraph) (F : String) (c : PosNode) (i : Nat) :
    (starNodes g F c)[i + 1]?
      = ((localNeighbors g F)[i]?).map
          (fun n => (⟨n.id, starX i (localNeighbors g F).length,
            starY i (localNeighbors g F).length⟩ : PosNode)) := by
  show ((⟨c.id, 0, 0⟩ : PosNode) ::
      (if (localNeighbors g F).length = 0 then []
       else mapWithIndex (fun i n => (⟨n.id, starX i (localNeighbors g F).length,
         starY i (localNeighbors g F).length⟩ : PosNode)) 0 (localNeighbors g F)))[i + 1]? = _
  rw [List.getElem?_cons_succ]
  by_cases h : (localNeighbors g F).length = 0
  · rw [if_pos h]
    have hnil : localNeighbors g F = [] := List.length_eq_zero.mp h
    rw [hnil]
    simp
  · rw [if_neg h, mapWithIndex_getElem?]
    rw [Nat.zero_add]

/-- C4 counterexample: the claim quantifies over every valid focus node
(an id present in the base node set, per the spec's ViewState
invariant), but with the empty-string id — which `!focusNodeId` treats
as unset — a focus with zero neighbors does not yield a single-node
view: the selector falls back to the full global sequence. -/
theorem starLayout_counterexample :
    (("" : String) ∈ (baseNodesSeq emptyIdGraph).map (·.id))
  ∧ ((localNeighbors emptyIdGraph "").length = 0)
  ∧ ¬ ((deriveView emptyIdGraph ⟨ViewMode.LOCAL, some ""⟩).1.length = 1) :=
  ⟨by decide, by decide, by decide⟩

/-- C4 (amended, adding "non-empty" to the focus id): for every
non-empty valid focus `F`, the LOCAL view places the focus at the
origin, the `i`-th of the `k` neighbors (in base order) at
`(220·cos(2πi/k), 220·sin(2πi/k))` — hence at distance 220 from the
origin — and shows only the focus node when `k = 0`. -/
theorem starLayout (g : WbsGraph) (F : String) (hne : F ≠ "")
    (hmem : F ∈ (baseNodesSeq g).map (·.id)) :
    ((deriveView g ⟨ViewMode.LOCAL, some F⟩).1.head? = some ⟨F, 0, 0⟩)
  ∧ (∀ i v, (localNeighbors g F)[i]? = some v →
      (deriveView g ⟨ViewMode.LOCAL, some F⟩).1[i + 1]?
        = some ⟨v.id, 220 * Real.cos (2 * Real.pi * i / (localNeighbors g F).length),
            220 * Real.sin (2 * Real.pi * i / (localNeighbors g F).length)⟩)
  ∧ (∀ i p, (deriveView g ⟨ViewMode.LOCAL, some F⟩).1[i + 1]? = some p →
      Real.sqrt ((p.x - 0) ^ 2 + (p.y - 0) ^ 2) = 220)
  ∧ ((localNeighbors g F).length = 0 →
      (deriveView g ⟨ViewMode.LOCAL, some F⟩).1 = [⟨F, 0, 0⟩]) := by
  obtain ⟨c, hc, hcid, hdv⟩ := deriveView_local_eq hne hmem
  refine ⟨?_, ?_, ?_, ?_⟩
  · rw [hdv]
    show ((⟨c.id, 0, 0⟩ : PosNode) :: _).head? = some ⟨F, 0, 0⟩
    rw [List.head?_cons, hcid]
  · intro i v hv
    rw [hdv]
    show (starNodes g F c)[i + 1]? = _
    rw [starNodes_getElem, hv, Option.map_some']
    simp only [starX, starY, starRadius, zero_add]
  · intro i p hp
    rw [hdv] at hp
    replace hp : (starNodes g F c)[i + 1]? = some p := hp
    rw [starNodes_getElem] at hp
    cases hv : (localNeighbors g F)[i]? with
    | none =>
      rw [hv] at hp
      exact absurd hp (by simp)
    | some v =>
      rw [hv] at hp
      simp only [Option.map_some'] at hp
      obtain rfl := (Option.some.inj hp).symm
      simp only [starX, starY, starRadius, zero_add]
      have hcs := Real.sin_sq_add_cos_sq
        ((2 * Real.pi * i) / (localNeighbors g F).length)
      have hsq : (220 * Real.cos ((2 * Real.pi * i) / (localNeighbors g F).length) - 0) ^ 2
          + (220 * Real.sin ((2 * Real.pi * i) / (localNeighbors g F).length) - 0) ^ 2
          = 220 ^ 2 := by nlinarith [hcs]
      rw [hsq]
      exact Real.sqrt_sq (by norm_num)
  · intro h0
    rw [hdv]
    show starNodes g F c = _
    simp only [starNodes, if_pos h0]
    rw [hcid]

/-- C4 witness: focusing `B` (two neighbors `A`, `C`) in the worked
example; the theorem instantiates with `k = 2`. -/
theorem starLayout_witness :
    (("B" : String) ≠ "" ∧ "B" ∈ (baseNodesSeq exGraph).map (·.id))
  ∧ (((deriveView exGraph ⟨ViewMode.LOCAL, some "B"⟩).1.head? = some ⟨"B", 0, 0⟩)
      ∧ (∀ i v, (localNeighbors exGraph "B")[i]? = some v →
          (deriveView exGraph ⟨ViewMode.LOCAL, some "B"⟩).1[i + 1]?
            = some ⟨v.id,
                220 * Real.cos (2 * Real.pi * i / (localNeighbors exGraph "B").length),
                220 * Real.sin (2 * Real.pi * i / (localNeighbors exGraph "B").length)⟩)
      ∧ (∀ i p, (deriveView exGraph ⟨ViewMode.LOCAL, some "B"⟩).1[i + 1]? = some p →
          Real.sqrt ((p.x - 0) ^ 2 + (p.y - 0) ^ 2) = 220)
      ∧ ((localNeighbors exGraph "B").length = 0 →
          (deriveView exGraph ⟨ViewMode.LOCAL, some "B"⟩).1 = [⟨"B", 0, 0⟩])) :=
  ⟨⟨by decide, by decide⟩, starLayout exGraph "B" (by decide) (by decide)⟩

/-- C8 counterexample: with the empty-string id (treated as "unset" by
`!focusNodeId`) as focus, the view falls back to the global rendering,
whose first node is not the focus — so "the returned focus node carries
a freshly computed position" fails for this valid-per-the-spec focus. -/
theorem localView_no_mutation_counterexample :
    (("" : String) ∈ (baseNodesSeq childEmptyIdGraph).map (·.id))
  ∧ ¬ ((deriveView childEmptyIdGraph ⟨ViewMode.LOCAL, some ""⟩).1.head?.map (·.id)
        = some "") :=
  ⟨by decide, by decide⟩

/-- C8 (amended, adding "non-empty" to the focus id): computing the
LOCAL view never mutates the cached base layout.  In the embedding the
local star view is assembled from freshly built records — the focus
copy carries position `(0, 0)` and the `i`-th neighbor copy carries the
star position — while every node of the positioned base sequence
(unconditionally, whatever view is derived) still carries the
hierarchy-layout position `(level·xGap, idx·yGap)`. -/
theorem localView_no_mutation (g : WbsGraph) (F : String) (hne : F ≠ "")
    (hmem : F ∈ (baseNodesSeq g).map (·.id)) :
    ((deriveView g ⟨ViewMode.LOCAL, some F⟩).1.head?.map (·.id) = some F
      ∧ (deriveView g ⟨ViewMode.LOCAL, some F⟩).1.head?.map (fun p => (p.x, p.y))
          = some (0, 0))
  ∧ (∀ i v, (localNeighbors g F)[i]? = some v →
      ∃ p, (deriveView g ⟨ViewMode.LOCAL, some F⟩).1[i + 1]? = some p ∧ p.id = v.id ∧
        p.x = starX i (localNeighbors g F).length ∧
        p.y = starY i (localNeighbors g F).length)
  ∧ (∀ n ∈ basePositioned g, ∃ b ∈ baseNodesSeq g,
      n.id = b.id ∧ n.x = b.level * xGap ∧ n.y = b.idx * yGap) := by
  obtain ⟨c, hc, hcid, hdv⟩ := deriveView_local_eq hne hmem
  refine ⟨?_, ?_, ?_⟩
  · rw [hdv]
    constructor
    · show (((⟨c.id, 0, 0⟩ : PosNode) :: _).head?).map (·.id) = some F
      rw [List.head?_cons, Option.map_some', hcid]
    · show (((⟨c.id, 0, 0⟩ : PosNode) :: _).head?).map (fun p => (p.x, p.y)) = some (0, 0)
      rw [List.head?_cons, Option.map_some']
  · intro i v hv
    rw [hdv]
    refine ⟨⟨v.id, starX i (localNeighbors g F).length,
      starY i (localNeighbors g F).length⟩, ?_, rfl, rfl, rfl⟩
    show (starNodes g F c)[i + 1]? = _
    rw [starNodes_getElem, hv, Option.map_some']
  · intro n hn
    obtain ⟨b, hb, rfl⟩ := List.mem_map.mp hn
    exact ⟨b, hb, rfl, rfl, rfl⟩

/-- C8 witness: focusing `B` in the worked example. -/
theorem localView_no_mutation_witness :
    (("B" : String) ≠ "" ∧ "B" ∈ (baseNodesSeq exGraph).map (·.id))
  ∧ (((deriveView exGraph ⟨ViewMode.LOCAL, some "B"⟩).1.head?.map (·.id) = some "B"
        ∧ (deriveView exGraph ⟨ViewMode.LOCAL, some "B"⟩).1.head?.map (fun p => (p.x, p.y))
            = some (0, 0))
      ∧ (∀ i v, (localNeighbors exGraph "B")[i]? = some v →
          ∃ p, (deriveView exGraph ⟨ViewMode.LOCAL, some "B"⟩).1[i + 1]? = some p ∧
            p.id = v.id ∧
            p.x = starX i (localNeighbors exGraph "B").length ∧
            p.y = starY i (localNeighbors exGraph "B").length)
      ∧ (∀ n ∈ basePositioned exGraph, ∃ b ∈ baseNodesSeq exGraph,
          n.id = b.id ∧ n.x = b.level * xGap ∧ n.y = b.idx * yGap)) :=
  ⟨⟨by decide, by decide⟩, localView_no_mutation exGraph "B" (by decide) (by decide)⟩

/-! ## Interaction controller -/

/-- C6: activating the canvas-menu item "return to WBS" from any prior
interaction state sets the mode to GLOBAL, clears the focus id, and
closes the context menu (leaving its other fields as they were). -/
theorem returnToWbs_resets (s : UiState) :
    (stepE s .menuReturnToWbs).1.viewMode = ViewMode.GLOBAL
  ∧ (stepE s .menuReturnToWbs).1.focusNodeId = none
  ∧ (stepE s .menuReturnToWbs).1.menu.visible = false
  ∧ (stepE s .menuReturnToWbs).1.menu.x = s.menu.x
  ∧ (stepE s .menuReturnToWbs).1.menu.y = s.menu.y
  ∧ (stepE s .menuReturnToWbs).1.menu.type = s.menu.type
  ∧ (stepE s .menuReturnToWbs).1.menu.nodeId = s.menu.nodeId :=
  ⟨rfl, rfl, rfl, rfl, rfl, rfl, rfl⟩

/-- C7: activating the node-menu item "create connected node" surfaces
a user-visible alert and closes the menu, and everything else is
unchanged: the loaded graph (hence its base node sequence and both edge
sequences), the view mode, and the focus id. -/
theorem createNode_no_state_change (a : AppState) :
    (stepA a .menuCreateNode).1.graph = a.graph
  ∧ baseNodesSeq (stepA a .menuCreateNode).1.graph = baseNodesSeq a.graph
  ∧ hierarchyEdges (stepA a .menuCreateNode).1.graph = hierarchyEdges a.graph
  ∧ dependencyEdges (stepA a .menuCreateNode).1.graph = dependencyEdges a.graph
  ∧ (stepA a .menuCreateNode).1.ui.viewMode = a.ui.viewMode
  ∧ (stepA a .menuCreateNode).1.ui.focusNodeId = a.ui.focusNodeId
  ∧ (stepA a .menuCreateNode).1.ui.menu = hideMenu a.ui.menu
  ∧ (∃ m, Effect.alertMsg m ∈ (stepA a .menuCreateNode).2) :=
  ⟨rfl, rfl, rfl, rfl, rfl, rfl, rfl,
    ⟨"not implemented yet", List.mem_cons_of_mem _ (List.mem_cons_self _ _)⟩⟩

/-- One step of the controller preserves "LOCAL mode implies a focus id
is present": the only transition into LOCAL is guarded on a truthy menu
node id, and the only transition clearing the focus also leaves LOCAL. -/
theorem stepE_preserves_focus_inv (s : UiState) (e : UiEvent)
    (hs : s.viewMode = ViewMode.LOCAL → s.focusNodeId ≠ none) :
    (stepE s e).1.viewMode = ViewMode.LOCAL → (stepE s e).1.focusNodeId ≠ none := by
  cases e with
  | nodeClick id => exact hs
  | edgeClick id => exact hs
  | paneClick => exact hs
  | paneContextMenu x y => exact hs
  | nodeContextMenu x y id => exact hs
  | menuReturnToWbs =>
    intro h
    exact absurd h (by simp [stepE])
  | menuShowConnected =>
    cases hm : s.menu.nodeId with
    | none =>
      simp only [stepE, hm]
      exact hs
    | some nid =>
      by_cases hn : nid = ""
      · simp only [stepE, hm, if_pos hn]
        exact hs
      · simp only [stepE, hm, if_neg hn]
        intro _
        simp
  | menuCreateNode => exact hs

/-- C9: in every controller state reachable from the initial state by
any event sequence, LOCAL mode implies the focus node id is non-null. -/
theorem local_mode_has_focus (evs : List UiEvent)
    (h : (runE initUiState evs).viewMode = ViewMode.LOCAL) :
    (runE initUiState evs).focusNodeId ≠ none := by
  suffices H : ∀ (l : List UiEvent) (s : UiState),
      (s.viewMode = ViewMode.LOCAL → s.focusNodeId ≠ none) →
      ((runE s l).viewMode = ViewMode.LOCAL → (runE s l).focusNodeId ≠ none) by
    exact H evs initUiState (by intro h'; exact absurd h' (by simp [initUiState])) h
  intro l
  induction l with
  | nil => exact fun s hs => hs
  | cons e es ih =>
    intro s hs
    exact ih _ (stepE_preserves_focus_inv s e hs)

/-- C9 witness: right-clicking node `A` then choosing "show connected
nodes" reaches a LOCAL state, and the theorem yields a present focus. -/
theorem local_mode_has_focus_witness :
    (runE initUiState [UiEvent.nodeContextMenu 1 2 "A", UiEvent.menuShowConnected]).viewMode
        = ViewMode.LOCAL
  ∧ (runE initUiState [UiEvent.nodeContextMenu 1 2 "A", UiEvent.menuShowConnected]).focusNodeId
        ≠ none :=
  ⟨by decide,
    local_mode_has_focus [UiEvent.nodeContextMenu 1 2 "A", UiEvent.menuShowConnected]
      (by decide)⟩

/-- C10: every event that closes the context menu (left-click on node,
edge or canvas; any menu-item activation) only flips `visible` to
`false`: the stored position, target kind and target node id keep the
values of the last right-click. -/
theorem closing_preserves_menu_data (s : UiState) (e : UiEvent)
    (h : closesMenu e = true) :
    (stepE s e).1.menu.visible = false
  ∧ (stepE s e).1.menu.x = s.menu.x
  ∧ (stepE s e).1.menu.y = s.menu.y
  ∧ (stepE s e).1.menu.type = s.menu.type
  ∧ (stepE s e).1.menu.nodeId = s.menu.nodeId := by
  cases e with
  | nodeClick id => exact ⟨rfl, rfl, rfl, rfl, rfl⟩
  | edgeClick id => exact ⟨rfl, rfl, rfl, rfl, rfl⟩
  | paneClick => exact ⟨rfl, rfl, rfl, rfl, rfl⟩
  | paneContextMenu x y => exact absurd h (by simp [closesMenu])
  | nodeContextMenu x y id => exact absurd h (by simp [closesMenu])
  | menuReturnToWbs => exact ⟨rfl, rfl, rfl, rfl, rfl⟩
  | menuShowConnected =>
    cases hm : s.menu.nodeId with
    | none => simp [stepE, hm, hideMenu]
    | some nid =>
      by_cases hn : nid = ""
      · simp [stepE, hm, if_pos hn, hideMenu]
      · simp [stepE, hm, if_neg hn, hideMenu]
  | menuCreateNode => exact ⟨rfl, rfl, rfl, rfl, rfl⟩

/-- C10 witness: a left-click on the canvas while a node menu for `A`
is open at `(3, 4)` hides the menu and keeps its data. -/
theorem closing_preserves_menu_data_witness :
    closesMenu UiEvent.paneClick = true
  ∧ ((stepE ⟨ViewMode.LOCAL, some "A", ⟨true, 3, 4, MenuKind.node, some "A"⟩⟩
        UiEvent.paneClick).1.menu.visible = false
      ∧ (stepE ⟨ViewMode.LOCAL, some "A", ⟨true, 3, 4, MenuKind.node, some "A"⟩⟩
          UiEvent.paneClick).1.menu.x
        = (⟨ViewMode.LOCAL, some "A",
            ⟨true, 3, 4, MenuKind.node, some "A"⟩⟩ : UiState).menu.x
      ∧ (stepE ⟨ViewMode.LOCAL, some "A", ⟨true, 3, 4, MenuKind.node, some "A"⟩⟩
          UiEvent.paneClick).1.menu.y
        = (⟨ViewMode.LOCAL, some "A",
            ⟨true, 3, 4, MenuKind.node, some "A"⟩⟩ : UiState).menu.y
      ∧ (stepE ⟨ViewMode.LOCAL, some "A", ⟨true, 3, 4, MenuKind.node, some "A"⟩⟩
          UiEvent.paneClick).1.menu.type
        = (⟨ViewMode.LOCAL, some "A",
            ⟨true, 3, 4, MenuKind.node, some "A"⟩⟩ : UiState).menu.type
      ∧ (stepE ⟨ViewMode.LOCAL, some "A", ⟨true, 3, 4, MenuKind.node, some "A"⟩⟩
          UiEvent.paneClick).1.menu.nodeId
        = (⟨ViewMode.LOCAL, some "A",
            ⟨true, 3, 4, MenuKind.node, some "A"⟩⟩ : UiState).menu.nodeId) :=
  ⟨by decide,
    closing_preserves_menu_data
      ⟨ViewMode.LOCAL, some "A", ⟨true, 3, 4, MenuKind.node, some "A"⟩⟩
      UiEvent.paneClick (by decide)⟩
